import Mathlib

/-!
Verification development for `function_size_calculator.py`.

The Python program scans source files line by line, matches function/method
headers with anchored regular expressions, and determines function extents
either by brace counting (JavaScript, Java, C#) or by indentation scoping
(Python).  This file gives a shallow embedding of the pure line-processing
core: the header regexes are implemented as deterministic character-list
matchers faithful to Python `re` semantics on the anchored patterns, the
scanners are structural recursions over the list of (newline-stripped)
lines, and the result-reduction logic of the two writers is embedded over
lists of records.  Filesystem and subprocess effects of the repository
walker are abstracted into an explicit environment.
-/

/-! ### Character classes (ASCII fragment of Python regex `\s` and `\w`) -/

/-- Python regex whitespace class `\s` (ASCII part: space, tab, newline,
carriage return, vertical tab, form feed). -/
def isSpaceChar (c : Char) : Bool :=
  c = ' ' || c = '\t' || c = '\n' || c = '\r' || c.toNat = 11 || c.toNat = 12

/-- Python regex word class `\w` (ASCII part: letters, digits, underscore). -/
def isWordChar (c : Char) : Bool := c.isAlphanum || c = '_'

/-- Greedy `\s*`: drop the maximal run of whitespace. -/
def dropWs (cs : List Char) : List Char := cs.dropWhile isSpaceChar

/-- Is the first character whitespace? -/
def headIsSpace : List Char → Bool
  | c :: _ => isSpaceChar c
  | [] => false

/-- Greedy `\s+`: require at least one whitespace character, then drop the
maximal whitespace run (the following atoms never match whitespace, so the
greedy run is the only viable parse). -/
def wsPlus (cs : List Char) : Option (List Char) :=
  if headIsSpace cs then some (dropWs cs) else none

/-- Greedy `(\w+)`: the maximal nonempty run of word characters, returned
together with the rest of the input. -/
def wordPlus (cs : List Char) : Option (List Char × List Char) :=
  match cs.takeWhile isWordChar with
  | [] => none
  | w => some (w, cs.dropWhile isWordChar)

/-- A single literal character. -/
def expectChar (c : Char) : List Char → Option (List Char)
  | x :: xs => if x = c then some xs else none
  | [] => none

/-- `[^)]*\)`: consume up to and including the first closing parenthesis;
fail if there is none. -/
def untilCloseParen : List Char → Option (List Char)
  | [] => none
  | c :: cs => if c = ')' then some cs else untilCloseParen cs

/-- A literal string: return the remainder after the prefix, if it matches. -/
def stripPrefixChars : List Char → List Char → Option (List Char)
  | [], cs => some cs
  | _ :: _, [] => none
  | p :: ps, c :: cs => if c = p then stripPrefixChars ps cs else none

/-- Alternation of literal keywords, tried in the regex's order.  The
keyword sets used below are pairwise non-prefix, so at most one
alternative can match at a given position. -/
def tryKeywords : List String → List Char → Option (List Char)
  | [], _ => none
  | k :: ks, cs =>
    match stripPrefixChars k.toList cs with
    | some cs' => some cs'
    | none => tryKeywords ks cs

/-! ### The header regexes of the four parsers

Each definition simulates the corresponding anchored Python pattern
character by character, including the backtracking order of the optional
groups (an optional group is tried present first; on downstream failure
the empty alternative is tried). -/

/-- JavaScript pattern 1: `^\s*function\s+(\w+)\s*\(`. -/
def matchP1 (cs : List Char) : Option String := do
  let cs ← stripPrefixChars ("function".toList) (dropWs cs)
  let cs ← wsPlus cs
  let (w, cs) ← wordPlus cs
  let _ ← expectChar '(' (dropWs cs)
  pure ⟨w⟩

/-- JavaScript pattern 2:
`^\s*(?:const|let|var)\s+(\w+)\s*=\s*(?:async\s*)?\([^)]*\)\s*=>`. -/
def matchP2 (cs : List Char) : Option String := do
  let cs0 := dropWs cs
  let cs ← tryKeywords ["const", "let", "var"] cs0
  let cs ← wsPlus cs
  let (w, cs) ← wordPlus cs
  let cs ← expectChar '=' (dropWs cs)
  let cs := dropWs cs
  let cs ← (match stripPrefixChars ("async".toList) cs with
    | some cs' => expectChar '(' (dropWs cs')
    | none => expectChar '(' cs)
  let cs ← untilCloseParen cs
  let cs ← expectChar '=' (dropWs cs)
  let _ ← expectChar '>' cs
  pure ⟨w⟩

/-- The common tail `(\w+)\s*\([^)]*\)\s*\{` of JavaScript patterns 3/4. -/
def matchSigBrace (cs : List Char) : Option String := do
  let (w, cs) ← wordPlus cs
  let cs ← expectChar '(' (dropWs cs)
  let cs ← untilCloseParen cs
  let _ ← expectChar '\x7b' (dropWs cs)
  pure ⟨w⟩

/-- `(?:async\s+)?` followed by `matchSigBrace`: try the group present
first, fall back to the empty alternative. -/
def matchAsyncSigBrace (cs : List Char) : Option String :=
  match stripPrefixChars ("async".toList) cs with
  | some cs' =>
    if headIsSpace cs' then
      match matchSigBrace (dropWs cs') with
      | some w => some w
      | none => matchSigBrace cs
    else matchSigBrace cs
  | none => matchSigBrace cs

/-- JavaScript pattern 3: `^\s*(?:async\s+)?(\w+)\s*\([^)]*\)\s*\{`. -/
def matchP3 (cs : List Char) : Option String :=
  matchAsyncSigBrace (dropWs cs)

/-- JavaScript pattern 4:
`^\s*(?:public|private|protected|static)?\s*(?:async\s+)?(\w+)\s*\([^)]*\)\s*\{`. -/
def matchP4 (cs : List Char) : Option String :=
  let cs := dropWs cs
  match tryKeywords ["public", "private", "protected", "static"] cs with
  | some cs' =>
    (match matchAsyncSigBrace (dropWs cs') with
     | some w => some w
     | none => matchAsyncSigBrace cs)
  | none => matchAsyncSigBrace cs

/-- `JavaScriptParser.PATTERNS`: the four patterns are tried in order and
the first match wins (`break` in the source). -/
def jsMatch (line : String) : Option String :=
  matchP1 line.toList <|> matchP2 line.toList <|> matchP3 line.toList <|>
    matchP4 line.toList

/-- Java return-type character class `[\w<>\[\]]`. -/
def isJavaTypeChar (c : Char) : Bool :=
  isWordChar c || c = '<' || c = '>' || c = '[' || c = ']'

/-- Java throws-clause character class `[\w\s,]`. -/
def isThrowsChar (c : Char) : Bool := isWordChar c || isSpaceChar c || c = ','

/-- The tail of the Java method pattern after the optional modifiers:
`[\w<>\[\]]+\s+(\w+)\s*\([^)]*\)\s*(?:throws\s+[\w\s,]+)?\s*\{`.
The optional throws group succeeds exactly when `throws` is followed by a
whitespace character, the maximal `[\w\s,]` run after `throws` has length
at least two, and a `{` follows that run; when the group fails the empty
alternative needs a `{` at the position before `throws`, which starts with
`t`, so it fails too. -/
def javaTail (cs : List Char) : Option String := do
  let t := cs.takeWhile isJavaTypeChar
  if t = [] then none
  else do
    let cs ← wsPlus (cs.dropWhile isJavaTypeChar)
    let (w, cs) ← wordPlus cs
    let cs ← expectChar '(' (dropWs cs)
    let cs ← untilCloseParen cs
    let cs := dropWs cs
    let _ ← (match stripPrefixChars ("throws".toList) cs with
      | some cs1 =>
        if headIsSpace cs1 then
          if 2 ≤ (cs1.takeWhile isThrowsChar).length then
            expectChar '\x7b' (cs1.dropWhile isThrowsChar)
          else none
        else none
      | none => expectChar '\x7b' cs)
    pure ⟨w⟩

/-- A chain of optional modifier keywords, each followed by `\s*`, in
front of a tail matcher.  Present alternatives are tried before empty
ones, leftmost group backtracking last, exactly as the regex engine
does.  At every entry point the head of the input is not whitespace, so
the interleaved `\s*` atoms are correctly simulated by `dropWs` after
each consumed keyword. -/
def modMatch (tail : List Char → Option String) :
    List (List String) → List Char → Option String
  | [], cs => tail cs
  | kws :: rest, cs =>
    match tryKeywords kws cs with
    | some cs' =>
      (match modMatch tail rest (dropWs cs') with
       | some w => some w
       | none => modMatch tail rest cs)
    | none => modMatch tail rest cs

/-- `JavaParser.METHOD_PATTERN`:
`^\s*(?:public|private|protected)?\s*(?:static)?\s*(?:final)?\s*(?:synchronized)?\s*`
`[\w<>\[\]]+\s+(\w+)\s*\([^)]*\)\s*(?:throws\s+[\w\s,]+)?\s*\{`. -/
def javaMatch (line : String) : Option String :=
  modMatch javaTail [["public", "private", "protected"], ["static"], ["final"],
    ["synchronized"]] (dropWs line.toList)

/-- C# type character class `[\w<>\[\]?]`. -/
def isCsTypeChar (c : Char) : Bool := isJavaTypeChar c || c = '?'

/-- The tail of the C# method pattern:
`[\w<>\[\]?]+\s+(\w+)\s*\([^)]*\)\s*\{?\s*$` (lines are modelled with the
trailing newline stripped, so `$` is end of input). -/
def csTail (cs : List Char) : Option String := do
  let t := cs.takeWhile isCsTypeChar
  if t = [] then none
  else do
    let cs ← wsPlus (cs.dropWhile isCsTypeChar)
    let (w, cs) ← wordPlus cs
    let cs ← expectChar '(' (dropWs cs)
    let cs ← untilCloseParen cs
    let cs := dropWs cs
    let cs := (match cs with
      | '\x7b' :: r => r
      | _ => cs)
    if dropWs cs = [] then pure ⟨w⟩ else none

/-- `CSharpParser.METHOD_PATTERN`:
`^\s*(?:public|private|protected|internal)?\s*(?:static)?\s*`
`(?:virtual|override|abstract|sealed|async)?\s*[\w<>\[\]?]+\s+(\w+)\s*\([^)]*\)\s*\{?\s*$`. -/
def csMatch (line : String) : Option String :=
  modMatch csTail [["public", "private", "protected", "internal"], ["static"],
    ["virtual", "override", "abstract", "sealed", "async"]] (dropWs line.toList)

/-- The tail `def\s+(\w+)\s*\(` of the Python pattern. -/
def pyDefTail (cs : List Char) : Option String := do
  let cs ← stripPrefixChars ("def".toList) cs
  let cs ← wsPlus cs
  let (w, cs) ← wordPlus cs
  let _ ← expectChar '(' (dropWs cs)
  pure ⟨w⟩

/-- `PythonParser.FUNC_PATTERN`: `^\s*(?:async\s+)?def\s+(\w+)\s*\(`. -/
def pyMatch (line : String) : Option String :=
  let cs := dropWs line.toList
  match stripPrefixChars ("async".toList) cs with
  | some cs' =>
    if headIsSpace cs' then
      (match pyDefTail (dropWs cs') with
       | some w => some w
       | none => pyDefTail cs)
    else pyDefTail cs
  | none => pyDefTail cs

/-! ### Line-level helpers used by the scanners -/

/-- `line.count(c)`. -/
def countChar (c : Char) (s : String) : Nat := s.toList.count c

/-- `line.count('{') - line.count('}')` as an integer. -/
def braceNet (s : String) : Int :=
  (countChar '\x7b' s : Int) - (countChar '\x7d' s : Int)

/-- `line.count('(') - line.count(')')` as an integer. -/
def parenNet (s : String) : Int :=
  (countChar '(' s : Int) - (countChar ')' s : Int)

/-- `':' in line`. -/
def hasColon (s : String) : Bool := s.toList.contains ':'

/-- `line.strip()` (both-ends whitespace strip), as a character list. -/
def strippedChars (s : String) : List Char :=
  ((s.toList.dropWhile isSpaceChar).reverse.dropWhile isSpaceChar).reverse

/-- `line.strip() == '' or line.strip().startswith('#')`: the lines the
Python body scanner skips. -/
def isSkipLine (s : String) : Bool :=
  match strippedChars s with
  | [] => true
  | c :: _ => c = '#'

/-- A non-blank, non-comment line ("substantive" in the specification). -/
def substantive (s : String) : Bool := !(isSkipLine s)

/-- `len(line) - len(line.lstrip())`: the leading-whitespace width. -/
def indentWidth (s : String) : Nat := (s.toList.takeWhile isSpaceChar).length

/-! ### The function record -/

/-- `FunctionInfo` from the source: name, file path, 1-indexed start and
end lines, and size in lines. -/
structure FunctionInfo where
  name : String
  file_path : String
  start_line : Nat
  end_line : Nat
  size : Nat
deriving DecidableEq

/-! ### The brace-counted scanner (JavaScriptParser / JavaParser)

The loop state is `none` (no function tracked) or
`some (name, start_line, brace_count)`; `lineNum` is the 1-indexed number
of the next line of the remaining input. -/

/-- The shared loop body of `JavaScriptParser.parse_functions` and
`JavaParser.parse_functions`, parameterized by the header matcher `m`
(the `PATTERNS` loop / `METHOD_PATTERN.search`). -/
def braceScanAux (m : String → Option String) (fp : String) :
    Option (String × Nat × Int) → Nat → List String → List FunctionInfo
  | _, _, [] => []
  | some (nm, st, bc), lineNum, line :: rest =>
    let bc' := bc + braceNet line
    if bc' = 0 then
      ⟨nm, fp, st, lineNum, lineNum - st + 1⟩ ::
        braceScanAux m fp none (lineNum + 1) rest
    else braceScanAux m fp (some (nm, st, bc')) (lineNum + 1) rest
  | none, lineNum, line :: rest =>
    match m line with
    | some nm =>
      let bc := braceNet line
      if bc = 0 then
        ⟨nm, fp, lineNum, lineNum, 1⟩ :: braceScanAux m fp none (lineNum + 1) rest
      else if 0 < bc then braceScanAux m fp (some (nm, lineNum, bc)) (lineNum + 1) rest
      else braceScanAux m fp none (lineNum + 1) rest
    | none => braceScanAux m fp none (lineNum + 1) rest

/-- `JavaScriptParser.parse_functions` (the file is given as its list of
newline-stripped lines). -/
def JavaScriptParser.parse_functions (fp : String) (lines : List String) :
    List FunctionInfo :=
  braceScanAux jsMatch fp none 1 lines

/-- `JavaParser.parse_functions`. -/
def JavaParser.parse_functions (fp : String) (lines : List String) :
    List FunctionInfo :=
  braceScanAux javaMatch fp none 1 lines

/-- The index (0-based, relative to the remaining input) of the first line
at which the running brace counter, started at `bc`, returns to zero; `none`
if it never does. -/
def closeIndex (bc : Int) : List String → Option Nat
  | [] => none
  | l :: ls =>
    let b := bc + braceNet l
    if b = 0 then some 0 else (closeIndex b ls).map (· + 1)

/-! ### The C# scanner -/

/-- The C# loop state: a tracked method (`current_method`) and a method
header waiting for its opening brace (`pending_method`). -/
structure CsState where
  cur : Option (String × Nat × Int)
  pending : Option (String × Nat)
deriving DecidableEq

/-- The `else` branch of the C# loop: search the pattern on the line. -/
def csTryMatch (m : String → Option String) (fp : String)
    (pending : Option (String × Nat)) (lineNum : Nat) (line : String) :
    CsState × List FunctionInfo :=
  match m line with
  | some nm =>
    if line.toList.contains '\x7b' then
      let bc := braceNet line
      if bc = 0 then (⟨none, none⟩, [⟨nm, fp, lineNum, lineNum, 1⟩])
      else (⟨some (nm, lineNum, bc), none⟩, [])
    else (⟨none, some (nm, lineNum)⟩, [])
  | none => (⟨none, pending⟩, [])

/-- One iteration of the C# loop. -/
def csStep (m : String → Option String) (fp : String) (st : CsState)
    (lineNum : Nat) (line : String) : CsState × List FunctionInfo :=
  match st.cur with
  | some (nm, s, bc) =>
    let bc' := bc + braceNet line
    if bc' = 0 then (⟨none, st.pending⟩, [⟨nm, fp, s, lineNum, lineNum - s + 1⟩])
    else (⟨some (nm, s, bc'), st.pending⟩, [])
  | none =>
    match st.pending with
    | some (nm, s) =>
      if strippedChars line = ['\x7b'] then (⟨some (nm, s, 1), none⟩, [])
      else csTryMatch m fp (some (nm, s)) lineNum line
    | none => csTryMatch m fp none lineNum line

/-- The C# scanning loop. -/
def csScanAux (m : String → Option String) (fp : String) :
    CsState → Nat → List String → List FunctionInfo
  | _, _, [] => []
  | st, lineNum, line :: rest =>
    let p := csStep m fp st lineNum line
    p.2 ++ csScanAux m fp p.1 (lineNum + 1) rest

/-- `CSharpParser.parse_functions`. -/
def CSharpParser.parse_functions (fp : String) (lines : List String) :
    List FunctionInfo :=
  csScanAux csMatch fp ⟨none, none⟩ 1 lines

/-! ### The Python (indentation-scoped) scanner

The source indexes into the full list of lines; here each loop is a
structural recursion over the suffix of the lines starting at the loop's
current index, with the absolute 0-based index carried alongside. -/

/-- The signature-close loop: starting at absolute index `j` with running
parenthesis balance `p`, return the absolute index of the line at which the
loop breaks (`':' in lines[j] and paren_count == 0`), or the index just
past the input if it never breaks.  `s` is the suffix of the lines starting
at index `j`. -/
def sigCloseList (j : Nat) (p : Int) : List String → Nat
  | [] => j
  | l :: rest =>
    let p' := p + parenNet l
    if hasColon l ∧ p' = 0 then j else sigCloseList (j + 1) p' rest

/-- The body loop: starting at absolute index `j` with current end line
`e` (0-based) and base indentation `base`, return the final `end_line`.
`s` is the suffix of the lines starting at index `j`. -/
def bodyEndList (j e base : Nat) : List String → Nat
  | [] => e
  | l :: rest =>
    if isSkipLine l then bodyEndList (j + 1) e base rest
    else if indentWidth l ≤ base then e
    else bodyEndList (j + 1) j base rest

/-- The main Python loop: `i` is the absolute 0-based index of the first
line of the remaining suffix. -/
def pyScanAux (m : String → Option String) (fp : String) :
    Nat → List String → List FunctionInfo
  | _, [] => []
  | i, line :: rest =>
    match m line with
    | some nm =>
      let base := indentWidth line
      let j := sigCloseList i 0 (line :: rest)
      let e := bodyEndList (j + 1) i base ((line :: rest).drop (j + 1 - i))
      if i ≤ e then
        ⟨nm, fp, i + 1, e + 1, e - i + 1⟩ :: pyScanAux m fp (i + 1) rest
      else pyScanAux m fp (i + 1) rest
    | none => pyScanAux m fp (i + 1) rest

/-- `PythonParser.parse_functions`. -/
def PythonParser.parse_functions (fp : String) (lines : List String) :
    List FunctionInfo :=
  pyScanAux pyMatch fp 0 lines

/-! ### Result reduction of the writers

`sorted(filtered_functions, key=lambda f: f.size, reverse=True)` is
Python's stable sort by size, descending.  It is modelled by an insertion
sort that keeps an incoming earlier element in front of the equal-sized
elements already placed; the theorems below establish the characterizing
properties (permutation, descending sizes, preservation of each
equal-size class in discovery order), which determine the stable
descending sort uniquely. -/

/-- Insert `f` in front of the first already-placed element whose size is
not larger. -/
def insertBySize (f : FunctionInfo) : List FunctionInfo → List FunctionInfo
  | [] => [f]
  | g :: gs => if f.size < g.size then g :: insertBySize f gs else f :: g :: gs

/-- Stable sort by size, descending. -/
def sortBySizeDesc : List FunctionInfo → List FunctionInfo
  | [] => []
  | f :: fs => insertBySize f (sortBySizeDesc fs)

/-- The single-pass summary accumulator of both writers: running total
size, running smallest (initially `float('inf')`, modelled as `⊤`), and
running largest (initially `0`). -/
structure SummaryAcc where
  total_size : Nat
  smallest : WithTop Nat
  largest : Nat
deriving DecidableEq

/-- One step of the single summary pass (`total_size += func.size`,
conditional smallest/largest updates). -/
def summaryStep (acc : SummaryAcc) (f : FunctionInfo) : SummaryAcc :=
  { total_size := acc.total_size + f.size
    smallest := if (f.size : WithTop Nat) < acc.smallest then (f.size : WithTop Nat)
      else acc.smallest
    largest := if acc.largest < f.size then f.size else acc.largest }

/-- The summary block: count, average (exact rational value of
`total_size / total`), largest, smallest. -/
structure Summary where
  total : Nat
  average : ℚ
  largest : Nat
  smallest : WithTop Nat
deriving DecidableEq

/-- `ExcelWriter.write_results`: the minimum-size filter. -/
def ExcelWriter.filtered (functions : List FunctionInfo) (min_size : Nat) :
    List FunctionInfo :=
  functions.filter (fun f => decide (min_size ≤ f.size))

/-- `ExcelWriter.write_results`: the emitted top-N rows
(`sorted(filtered_functions, key=lambda f: f.size, reverse=True)[:top_n]`). -/
def ExcelWriter.topFunctions (functions : List FunctionInfo)
    (top_n min_size : Nat) : List FunctionInfo :=
  (sortBySizeDesc (ExcelWriter.filtered functions min_size)).take top_n

/-- `ExcelWriter.write_results`: the summary block, present exactly when
the filtered list is nonempty. -/
def ExcelWriter.summary (functions : List FunctionInfo) (min_size : Nat) :
    Option Summary :=
  let filtered := ExcelWriter.filtered functions min_size
  if filtered.isEmpty then none
  else
    let acc := filtered.foldl summaryStep ⟨0, ⊤, 0⟩
    some ⟨filtered.length, (acc.total_size : ℚ) / (filtered.length : ℚ),
      acc.largest, acc.smallest⟩

/-- `JSONWriter.write_results`: the minimum-size filter. -/
def JSONWriter.filtered (functions : List FunctionInfo) (min_size : Nat) :
    List FunctionInfo :=
  functions.filter (fun f => decide (min_size ≤ f.size))

/-- `JSONWriter.write_results`: the emitted `top_functions` list. -/
def JSONWriter.topFunctions (functions : List FunctionInfo)
    (top_n min_size : Nat) : List FunctionInfo :=
  (sortBySizeDesc (JSONWriter.filtered functions min_size)).take top_n

/-- `JSONWriter.write_results`: the summary object, nonempty exactly when
the filtered list is nonempty. -/
def JSONWriter.summary (functions : List FunctionInfo) (min_size : Nat) :
    Option Summary :=
  let filtered := JSONWriter.filtered functions min_size
  if filtered.isEmpty then none
  else
    let acc := filtered.foldl summaryStep ⟨0, ⊤, 0⟩
    some ⟨filtered.length, (acc.total_size : ℚ) / (filtered.length : ℚ),
      acc.largest, acc.smallest⟩

/-! ### The repository walker (`scan_single_repository`)

Filesystem and subprocess effects are abstracted into an explicit
environment: whether a local path exists, the outcome of `git clone`, and
the records produced by walking the repository's files.  The error paths
the claims are about are modelled exactly; totality of the Lean function
models the absence of a propagating exception on those paths. -/

/-- Outcome of `subprocess.run(['git', 'clone', ...])`. -/
inductive CloneOutcome
  | success
  | failure
  | timeout
deriving DecidableEq

/-- The effectful context of `scan_single_repository`. -/
structure ScanEnv where
  pathExists : String → Bool
  cloneOutcome : String → CloneOutcome
  localScan : String → List FunctionInfo

/-- `str.startswith`. -/
def strStartsWith (s pre : String) : Bool :=
  (stripPrefixChars pre.toList s.toList).isSome

/-- `repo_path.startswith('http://') or ... ('https://') or ... ('git@')`. -/
def isRemoteRepo (repo : String) : Bool :=
  strStartsWith repo ("http://") || strStartsWith repo ("https://") ||
    strStartsWith repo ("git@")

/-- `rstrip('/')`. -/
def rstripSlash (cs : List Char) : List Char :=
  (cs.reverse.dropWhile (· = '/')).reverse

/-- `.replace('.git', '')`: remove every occurrence of `.git`, scanning
left to right. -/
def removeDotGit : List Char → List Char
  | [] => []
  | '.' :: 'g' :: 'i' :: 't' :: rest => removeDotGit rest
  | c :: cs => c :: removeDotGit cs

/-- `os.path.basename`: the part after the last slash. -/
def baseNameChars (cs : List Char) : List Char :=
  (cs.reverse.takeWhile (· ≠ '/')).reverse

/-- `os.path.basename(repo_path.rstrip('/').replace('.git', ''))`, with
the `'repository'` fallback for an empty result. -/
def repoName (repo : String) : String :=
  let cleaned := baseNameChars (removeDotGit (rstripSlash repo.toList))
  if cleaned = [] then ("repository") else ⟨cleaned⟩

/-- `scan_single_repository`: remote locators are cloned (timeout and
failure both yield `(None, [])`), local paths are checked for existence
(a missing path yields `(None, [])`), and otherwise the repository's
files are walked. -/
def scan_single_repository (env : ScanEnv) (repo : String) :
    Option String × List FunctionInfo :=
  if isRemoteRepo repo then
    match env.cloneOutcome repo with
    | CloneOutcome.timeout => (none, [])
    | CloneOutcome.failure => (none, [])
    | CloneOutcome.success => (some (repoName repo), env.localScan repo)
  else if env.pathExists repo then (some (repoName repo), env.localScan repo)
  else (none, [])

/-! ### Specification-side functions

These definitions transcribe the specification's *descriptions* of the
scanners' behaviour (first terminating line, last substantive line, first
signature-closing line); the theorems below prove that the embedded code
agrees with them. -/

/-- The well-formedness property the specification asserts of every
emitted record: 1-indexed lines, `end ≥ start ≥ 1`, and
`size = end − start + 1` exactly. -/
def saneRecord (r : FunctionInfo) : Prop :=
  1 ≤ r.start_line ∧ r.start_line ≤ r.end_line ∧
    r.size = r.end_line - r.start_line + 1 ∧
    r.size + r.start_line = r.end_line + 1

/-- Relative index of the first line of `s` that is substantive and has
indentation at most `base` (the claim's terminating line), if any. -/
def firstTermRel (base : Nat) : List String → Option Nat
  | [] => none
  | l :: rest =>
    if substantive l ∧ indentWidth l ≤ base then some 0
    else (firstTermRel base rest).map (· + 1)

/-- Relative index of the last substantive line among the first `t` lines
of the list, if any. -/
def lastSubBefore : Nat → List String → Option Nat
  | 0, _ => none
  | _ + 1, [] => none
  | t + 1, l :: rest =>
    match lastSubBefore t rest with
    | some r => some (r + 1)
    | none => if substantive l then some 0 else none

/-- Relative index of the first line containing a colon at running
parenthesis balance zero, the balance being accumulated (starting from
`p`) from the first line of the list onward. -/
def firstSigCloseRel (p : Int) : List String → Option Nat
  | [] => none
  | l :: rest =>
    if hasColon l ∧ p + parenNet l = 0 then some 0
    else (firstSigCloseRel (p + parenNet l) rest).map (· + 1)

/-- Number of lines of the list matched by the header pattern. -/
def countMatches (m : String → Option String) : List String → Nat
  | [] => 0
  | line :: rest => (if (m line).isSome then 1 else 0) + countMatches m rest

/-! ## Helper lemmas: the brace-counted scanner -/

/-- While a function is open, the scanner only accumulates the brace
counter: the emitted head record and the resumption point are determined
by `closeIndex` alone, independently of the header matcher. -/
lemma braceScan_tracking (m : String → Option String) (fp nm : String) :
    ∀ (lines : List String) (st : Nat) (bc : Int) (n : Nat),
      braceScanAux m fp (some (nm, st, bc)) n lines =
        (match closeIndex bc lines with
        | none => []
        | some j =>
          ⟨nm, fp, st, n + j, n + j - st + 1⟩ ::
            braceScanAux m fp none (n + j + 1) (lines.drop (j + 1)))
  | [], st, bc, n => rfl
  | l :: ls, st, bc, n => by
    by_cases h : bc + braceNet l = 0
    · simp [braceScanAux, closeIndex, h]
    · have ih := braceScan_tracking m fp nm ls st (bc + braceNet l) (n + 1)
      simp only [braceScanAux, if_neg h]
      rw [ih]
      simp only [closeIndex, if_neg h]
      cases hcl : closeIndex (bc + braceNet l) ls with
      | none => simp [hcl]
      | some j =>
        simp only [hcl, Option.map_some']
        have h1 : n + 1 + j = n + (j + 1) := by omega
        have h2 : n + 1 + j + 1 = n + (j + 1) + 1 := by omega
        simp [h1, h2]

/-- Every record emitted by the brace scanner satisfies the record
invariant, provided the tracked start line (if any) lies strictly before
the current line number and at least at line 1. -/
lemma braceScan_sane (m : String → Option String) (fp : String) :
    ∀ (lines : List String) (cur : Option (String × Nat × Int)) (n : Nat),
      1 ≤ n →
      (∀ nm st bc, cur = some (nm, st, bc) → 1 ≤ st ∧ st < n) →
      ∀ r ∈ braceScanAux m fp cur n lines, saneRecord r
  | [], cur, n, _, _, r, hr => by simp [braceScanAux] at hr
  | l :: ls, cur, n, hn, hcur, r, hr => by
    match cur with
    | some (nm, st, bc) =>
      obtain ⟨h1, h2⟩ := hcur nm st bc rfl
      by_cases h : bc + braceNet l = 0
      · simp only [braceScanAux, if_pos h, List.mem_cons] at hr
        rcases hr with hr | hr
        · subst hr
          dsimp only [saneRecord]
          omega
        · exact braceScan_sane m fp ls none (n + 1) (by omega) (by simp) r hr
      · simp only [braceScanAux, if_neg h] at hr
        exact braceScan_sane m fp ls (some (nm, st, bc + braceNet l)) (n + 1)
          (by omega)
          (by intro nm' st' bc' he; injection he with he; injection he with e1 e2
              injection e2 with e2 e3; exact ⟨by omega, by omega⟩) r hr
    | none =>
      cases hm : m l with
      | none =>
        simp only [braceScanAux, hm] at hr
        exact braceScan_sane m fp ls none (n + 1) (by omega) (by simp) r hr
      | some nm =>
        by_cases h0 : braceNet l = 0
        · simp only [braceScanAux, hm, if_pos h0, List.mem_cons] at hr
          rcases hr with hr | hr
          · subst hr
            dsimp only [saneRecord]
            omega
          · exact braceScan_sane m fp ls none (n + 1) (by omega) (by simp) r hr
        · by_cases hpos : 0 < braceNet l
          · simp only [braceScanAux, hm, if_neg h0, if_pos hpos] at hr
            exact braceScan_sane m fp ls (some (nm, n, braceNet l)) (n + 1)
              (by omega)
              (by intro nm' st' bc' he; injection he with he
                  injection he with e1 e2; injection e2 with e2 e3
                  exact ⟨by omega, by omega⟩) r hr
          · simp only [braceScanAux, hm, if_neg h0, if_neg hpos] at hr
            exact braceScan_sane m fp ls none (n + 1) (by omega) (by simp) r hr

/-! ## Helper lemmas: the C# scanner -/

/-- State invariant of the C# loop at line number `n`: any tracked or
pending start line lies in `[1, n)`. -/
def csInv (st : CsState) (n : Nat) : Prop :=
  (∀ nm s bc, st.cur = some (nm, s, bc) → 1 ≤ s ∧ s < n) ∧
    (∀ nm s, st.pending = some (nm, s) → 1 ≤ s ∧ s < n)

lemma csTryMatch_sane (m : String → Option String) (fp : String)
    (pending : Option (String × Nat)) (n : Nat) (l : String)
    (hn : 1 ≤ n) (hp : ∀ nm s, pending = some (nm, s) → 1 ≤ s ∧ s < n) :
    (∀ r ∈ (csTryMatch m fp pending n l).2, saneRecord r) ∧
      csInv (csTryMatch m fp pending n l).1 (n + 1) := by
  cases hm : m l with
  | none =>
    have hstep : csTryMatch m fp pending n l = (⟨none, pending⟩, []) := by
      simp [csTryMatch, hm]
    rw [hstep]
    refine ⟨by simp, by simp [csInv], ?_⟩
    intro nm s he
    have := hp nm s he
    omega
  | some nm =>
    by_cases hb : '\x7b' ∈ l.data
    · by_cases h0 : braceNet l = 0
      · have hstep : csTryMatch m fp pending n l =
            (⟨none, none⟩, [⟨nm, fp, n, n, 1⟩]) := by
          simp [csTryMatch, hm, hb, h0]
        rw [hstep]
        refine ⟨?_, by simp [csInv]⟩
        intro r hr
        simp only [List.mem_singleton] at hr
        subst hr
        dsimp only [saneRecord]
        omega
      · have hstep : csTryMatch m fp pending n l =
            (⟨some (nm, n, braceNet l), none⟩, []) := by
          simp [csTryMatch, hm, hb, h0]
        rw [hstep]
        refine ⟨by simp, ?_, by simp⟩
        intro nm' s bc he
        simp only [Option.some.injEq, Prod.mk.injEq] at he
        omega
    · have hstep : csTryMatch m fp pending n l = (⟨none, some (nm, n)⟩, []) := by
        simp [csTryMatch, hm, hb]
      rw [hstep]
      refine ⟨by simp, by simp [csInv], ?_⟩
      intro nm' s he
      simp only [Option.some.injEq, Prod.mk.injEq] at he
      omega

lemma csStep_sane (m : String → Option String) (fp : String) (st : CsState)
    (n : Nat) (l : String) (hn : 1 ≤ n) (hinv : csInv st n) :
    (∀ r ∈ (csStep m fp st n l).2, saneRecord r) ∧
      csInv (csStep m fp st n l).1 (n + 1) := by
  obtain ⟨hc, hp⟩ := hinv
  cases hcur : st.cur with
  | some t =>
    obtain ⟨nm, s, bc⟩ := t
    obtain ⟨h1, h2⟩ := hc nm s bc hcur
    by_cases h : bc + braceNet l = 0
    · have hstep : csStep m fp st n l =
          (⟨none, st.pending⟩, [⟨nm, fp, s, n, n - s + 1⟩]) := by
        simp [csStep, hcur, h]
      rw [hstep]
      refine ⟨?_, by simp [csInv], ?_⟩
      · intro r hr
        simp only [List.mem_singleton] at hr
        subst hr
        dsimp only [saneRecord]
        omega
      · intro nm' s' he
        have := hp nm' s' he
        omega
    · have hstep : csStep m fp st n l =
          (⟨some (nm, s, bc + braceNet l), st.pending⟩, []) := by
        simp [csStep, hcur, h]
      rw [hstep]
      refine ⟨by simp, ?_, ?_⟩
      · intro nm' s' bc' he
        simp only [Option.some.injEq, Prod.mk.injEq] at he
        omega
      · intro nm' s' he
        have := hp nm' s' he
        omega
  | none =>
    cases hpd : st.pending with
    | some t =>
      obtain ⟨nm, s⟩ := t
      obtain ⟨h1, h2⟩ := hp nm s hpd
      by_cases hbr : strippedChars l = ['\x7b']
      · have hstep : csStep m fp st n l = (⟨some (nm, s, 1), none⟩, []) := by
          simp [csStep, hcur, hpd, hbr]
        rw [hstep]
        refine ⟨by simp, ?_, by simp⟩
        intro nm' s' bc' he
        simp only [Option.some.injEq, Prod.mk.injEq] at he
        omega
      · have hstep : csStep m fp st n l = csTryMatch m fp (some (nm, s)) n l := by
          simp [csStep, hcur, hpd, hbr]
        rw [hstep]
        exact csTryMatch_sane m fp (some (nm, s)) n l hn
          (by intro nm' s' he
              simp only [Option.some.injEq, Prod.mk.injEq] at he
              omega)
    | none =>
      have hstep : csStep m fp st n l = csTryMatch m fp none n l := by
        simp [csStep, hcur, hpd]
      rw [hstep]
      exact csTryMatch_sane m fp none n l hn (by simp)

lemma csScan_sane (m : String → Option String) (fp : String) :
    ∀ (lines : List String) (st : CsState) (n : Nat),
      1 ≤ n → csInv st n →
      ∀ r ∈ csScanAux m fp st n lines, saneRecord r
  | [], st, n, _, _, r, hr => by simp [csScanAux] at hr
  | l :: ls, st, n, hn, hinv, r, hr => by
    obtain ⟨hrec, hinv'⟩ := csStep_sane m fp st n l hn hinv
    simp only [csScanAux, List.mem_append] at hr
    rcases hr with hr | hr
    · exact hrec r hr
    · exact csScan_sane m fp ls (csStep m fp st n l).1 (n + 1) (by omega) hinv' r hr

/-! ## Helper lemmas: the Python scanner -/

lemma sigCloseList_ge : ∀ (s : List String) (j : Nat) (p : Int),
    j ≤ sigCloseList j p s
  | [], j, p => le_refl j
  | l :: rest, j, p => by
    by_cases h : hasColon l ∧ p + parenNet l = 0
    · simp [sigCloseList, h]
    · simp only [sigCloseList, if_neg h]
      have := sigCloseList_ge rest (j + 1) (p + parenNet l)
      omega

lemma bodyEndList_cases : ∀ (s : List String) (j e base : Nat),
    bodyEndList j e base s = e ∨ j ≤ bodyEndList j e base s
  | [], j, e, base => Or.inl rfl
  | l :: rest, j, e, base => by
    by_cases hsk : isSkipLine l
    · simp only [bodyEndList, if_pos hsk]
      rcases bodyEndList_cases rest (j + 1) e base with h | h
      · exact Or.inl h
      · exact Or.inr (by omega)
    · by_cases hin : indentWidth l ≤ base
      · left
        simp only [bodyEndList, if_neg hsk, if_pos hin]
      · simp only [bodyEndList, if_neg hsk, if_neg hin]
        rcases bodyEndList_cases rest (j + 1) j base with h | h
        · exact Or.inr (by omega)
        · exact Or.inr (by omega)

/-- The 0-based end line the Python scanner computes for a header at
absolute index `i` whose suffix of lines is `line :: rest`. -/
def pyEnd (i : Nat) (line : String) (rest : List String) : Nat :=
  bodyEndList (sigCloseList i 0 (line :: rest) + 1) i (indentWidth line)
    ((line :: rest).drop (sigCloseList i 0 (line :: rest) + 1 - i))

lemma pyEnd_ge (i : Nat) (line : String) (rest : List String) :
    i ≤ pyEnd i line rest := by
  have h1 := sigCloseList_ge (line :: rest) i 0
  rcases bodyEndList_cases ((line :: rest).drop (sigCloseList i 0 (line :: rest) + 1 - i))
    (sigCloseList i 0 (line :: rest) + 1) i (indentWidth line) with h | h
  · unfold pyEnd
    omega
  · unfold pyEnd
    omega

lemma pyScan_cons_some (m : String → Option String) (fp : String) (i : Nat)
    (line : String) (rest : List String) (nm : String) (hm : m line = some nm) :
    pyScanAux m fp i (line :: rest) =
      ⟨nm, fp, i + 1, pyEnd i line rest + 1, pyEnd i line rest - i + 1⟩ ::
        pyScanAux m fp (i + 1) rest := by
  have hge : i ≤ pyEnd i line rest := pyEnd_ge i line rest
  unfold pyEnd at hge ⊢
  simp only [pyScanAux, hm]
  rw [if_pos hge]

lemma pyScan_cons_none (m : String → Option String) (fp : String) (i : Nat)
    (line : String) (rest : List String) (hm : m line = none) :
    pyScanAux m fp i (line :: rest) = pyScanAux m fp (i + 1) rest := by
  simp [pyScanAux, hm]

lemma pyScan_sane (m : String → Option String) (fp : String) :
    ∀ (lines : List String) (i : Nat), ∀ r ∈ pyScanAux m fp i lines, saneRecord r
  | [], i, r, hr => by simp [pyScanAux] at hr
  | line :: rest, i, r, hr => by
    cases hm : m line with
    | none =>
      rw [pyScan_cons_none m fp i line rest hm] at hr
      exact pyScan_sane m fp rest (i + 1) r hr
    | some nm =>
      rw [pyScan_cons_some m fp i line rest nm hm] at hr
      simp only [List.mem_cons] at hr
      rcases hr with hr | hr
      · subst hr
        have := pyEnd_ge i line rest
        dsimp only [saneRecord]
        omega
      · exact pyScan_sane m fp rest (i + 1) r hr

lemma pyScan_length (m : String → Option String) (fp : String) :
    ∀ (lines : List String) (i : Nat),
      (pyScanAux m fp i lines).length = countMatches m lines
  | [], i => by simp [pyScanAux, countMatches]
  | line :: rest, i => by
    cases hm : m line with
    | none =>
      rw [pyScan_cons_none m fp i line rest hm]
      simp [countMatches, hm, pyScan_length m fp rest (i + 1)]
    | some nm =>
      rw [pyScan_cons_some m fp i line rest nm hm]
      simp [countMatches, hm, pyScan_length m fp rest (i + 1)]
      ring

lemma sigCloseList_spec : ∀ (s : List String) (j : Nat) (p : Int),
    sigCloseList j p s = j + (firstSigCloseRel p s).getD s.length
  | [], j, p => by simp [sigCloseList, firstSigCloseRel]
  | l :: rest, j, p => by
    by_cases h : hasColon l ∧ p + parenNet l = 0
    · simp [sigCloseList, firstSigCloseRel, h]
    · simp only [sigCloseList, if_neg h, firstSigCloseRel]
      rw [sigCloseList_spec rest (j + 1) (p + parenNet l)]
      cases hf : firstSigCloseRel (p + parenNet l) rest with
      | none => simp
                ring
      | some r => simp
                  ring

lemma bodyEndList_spec : ∀ (s : List String) (j e base : Nat),
    bodyEndList j e base s =
      (match lastSubBefore ((firstTermRel base s).getD s.length) s with
      | none => e
      | some r => j + r)
  | [], j, e, base => by simp [bodyEndList, firstTermRel, lastSubBefore]
  | l :: rest, j, e, base => by
    by_cases hsk : isSkipLine l
    · have hsub : substantive l = false := by simp [substantive, hsk]
      have hcond : ¬(substantive l ∧ indentWidth l ≤ base) := by simp [hsub]
      have ht : (firstTermRel base (l :: rest)).getD (l :: rest).length =
          (firstTermRel base rest).getD rest.length + 1 := by
        simp only [firstTermRel, if_neg hcond]
        cases hf : firstTermRel base rest with
        | none => simp [hf]
        | some r => simp [hf]
      rw [bodyEndList, if_pos hsk, bodyEndList_spec rest (j + 1) e base, ht]
      simp only [lastSubBefore, hsub, Bool.false_eq_true, if_false]
      cases hl : lastSubBefore ((firstTermRel base rest).getD rest.length) rest with
      | none => simp
      | some r => simp
                  ring
    · have hsub : substantive l = true := by simp [substantive, hsk]
      by_cases hin : indentWidth l ≤ base
      · have hcond : substantive l ∧ indentWidth l ≤ base := ⟨hsub, hin⟩
        have ht : (firstTermRel base (l :: rest)).getD (l :: rest).length = 0 := by
          simp [firstTermRel, hcond]
        rw [bodyEndList, if_neg hsk, if_pos hin, ht]
        simp [lastSubBefore]
      · have hcond : ¬(substantive l ∧ indentWidth l ≤ base) := by
          intro hc
          exact hin hc.2
        have ht : (firstTermRel base (l :: rest)).getD (l :: rest).length =
            (firstTermRel base rest).getD rest.length + 1 := by
          simp only [firstTermRel, if_neg hcond]
          cases hf : firstTermRel base rest with
          | none => simp [hf]
          | some r => simp [hf]
        rw [bodyEndList, if_neg hsk, if_neg hin,
          bodyEndList_spec rest (j + 1) j base, ht]
        simp only [lastSubBefore, hsub, if_true]
        cases hl : lastSubBefore ((firstTermRel base rest).getD rest.length) rest with
        | none => simp
        | some r => simp
                    ring

/-! ## Helper lemmas: stable sort and summary pass -/

lemma insertBySize_perm (f : FunctionInfo) :
    ∀ l : List FunctionInfo, (insertBySize f l).Perm (f :: l)
  | [] => List.Perm.refl _
  | g :: gs => by
    by_cases h : f.size < g.size
    · simp only [insertBySize, if_pos h]
      exact ((insertBySize_perm f gs).cons g).trans (List.Perm.swap f g gs)
    · simp only [insertBySize, if_neg h]
      exact List.Perm.refl _

lemma sortBySizeDesc_perm : ∀ l : List FunctionInfo, (sortBySizeDesc l).Perm l
  | [] => List.Perm.refl _
  | f :: fs =>
    (insertBySize_perm f (sortBySizeDesc fs)).trans ((sortBySizeDesc_perm fs).cons f)

lemma mem_insertBySize {x f : FunctionInfo} {l : List FunctionInfo}
    (hx : x ∈ insertBySize f l) : x = f ∨ x ∈ l := by
  have := (insertBySize_perm f l).mem_iff.mp hx
  simpa using this

lemma insertBySize_pairwise (f : FunctionInfo) :
    ∀ l : List FunctionInfo,
      List.Pairwise (fun a b => b.size ≤ a.size) l →
      List.Pairwise (fun a b => b.size ≤ a.size) (insertBySize f l)
  | [], _ => by simp [insertBySize]
  | g :: gs, hp => by
    obtain ⟨hg, hgs⟩ := List.pairwise_cons.mp hp
    by_cases h : f.size < g.size
    · simp only [insertBySize, if_pos h]
      refine List.pairwise_cons.mpr ⟨?_, insertBySize_pairwise f gs hgs⟩
      intro x hx
      rcases mem_insertBySize hx with rfl | hx
      · omega
      · exact hg x hx
    · simp only [insertBySize, if_neg h]
      refine List.pairwise_cons.mpr ⟨?_, List.pairwise_cons.mpr ⟨hg, hgs⟩⟩
      intro x hx
      rcases List.mem_cons.mp hx with rfl | hx
      · omega
      · have := hg x hx
        omega

lemma sortBySizeDesc_pairwise :
    ∀ l : List FunctionInfo,
      List.Pairwise (fun a b => b.size ≤ a.size) (sortBySizeDesc l)
  | [] => List.Pairwise.nil
  | f :: fs => insertBySize_pairwise f _ (sortBySizeDesc_pairwise fs)

lemma insertBySize_filter (f : FunctionInfo) (s : Nat) :
    ∀ l : List FunctionInfo,
      (insertBySize f l).filter (fun g => g.size == s) =
        if f.size == s then f :: l.filter (fun g => g.size == s)
        else l.filter (fun g => g.size == s)
  | [] => by
    by_cases hfs : f.size = s <;> simp [insertBySize, hfs]
  | g :: gs => by
    by_cases h : f.size < g.size
    · by_cases hfs : f.size = s
      · have hg : ¬(g.size = s) := by omega
        simp only [insertBySize, if_pos h, List.filter_cons]
        simp [hfs, hg, insertBySize_filter f s gs]
      · simp only [insertBySize, if_pos h, List.filter_cons]
        by_cases hgs : g.size = s <;>
          simp [hfs, hgs, insertBySize_filter f s gs]
    · simp only [insertBySize, if_neg h, List.filter_cons]

lemma sortBySizeDesc_filter (s : Nat) :
    ∀ l : List FunctionInfo,
      (sortBySizeDesc l).filter (fun g => g.size == s) =
        l.filter (fun g => g.size == s)
  | [] => rfl
  | f :: fs => by
    simp only [sortBySizeDesc]
    rw [insertBySize_filter f s (sortBySizeDesc fs), sortBySizeDesc_filter s fs]
    by_cases hfs : f.size = s <;> simp [List.filter_cons, hfs]

lemma foldl_summaryStep_total :
    ∀ (l : List FunctionInfo) (a : SummaryAcc),
      (l.foldl summaryStep a).total_size = a.total_size +
        (l.map (fun f => f.size)).sum
  | [], a => by simp
  | f :: fs, a => by
    simp only [List.foldl_cons, List.map_cons, List.sum_cons]
    rw [foldl_summaryStep_total fs (summaryStep a f)]
    simp only [summaryStep]
    ring

lemma foldl_summaryStep_largest :
    ∀ (l : List FunctionInfo) (a : SummaryAcc),
      a.largest ≤ (l.foldl summaryStep a).largest ∧
      (∀ f ∈ l, f.size ≤ (l.foldl summaryStep a).largest) ∧
      ((l.foldl summaryStep a).largest = a.largest ∨
        ∃ g ∈ l, (l.foldl summaryStep a).largest = g.size)
  | [], a => ⟨le_refl _, by simp, Or.inl rfl⟩
  | f :: fs, a => by
    obtain ⟨ih1, ih2, ih3⟩ := foldl_summaryStep_largest fs (summaryStep a f)
    have hstep : (summaryStep a f).largest =
        if a.largest < f.size then f.size else a.largest := rfl
    simp only [List.foldl_cons]
    refine ⟨?_, ?_, ?_⟩
    · by_cases h : a.largest < f.size
      · rw [hstep, if_pos h] at ih1
        omega
      · rw [hstep, if_neg h] at ih1
        omega
    · intro g hg
      rcases List.mem_cons.mp hg with rfl | hg
      · by_cases h : a.largest < g.size
        · rw [hstep, if_pos h] at ih1
          omega
        · rw [hstep, if_neg h] at ih1
          omega
      · exact ih2 g hg
    · rcases ih3 with h3 | ⟨g, hg, hge⟩
      · by_cases h : a.largest < f.size
        · rw [hstep, if_pos h] at h3
          exact Or.inr ⟨f, List.mem_cons_self f fs, h3⟩
        · rw [hstep, if_neg h] at h3
          exact Or.inl h3
      · exact Or.inr ⟨g, List.mem_cons_of_mem f hg, hge⟩

lemma foldl_summaryStep_smallest :
    ∀ (l : List FunctionInfo) (a : SummaryAcc),
      (l.foldl summaryStep a).smallest ≤ a.smallest ∧
      (∀ f ∈ l, (l.foldl summaryStep a).smallest ≤ (f.size : WithTop Nat)) ∧
      ((l.foldl summaryStep a).smallest = a.smallest ∨
        ∃ g ∈ l, (l.foldl summaryStep a).smallest = (g.size : WithTop Nat))
  | [], a => ⟨le_refl _, by simp, Or.inl rfl⟩
  | f :: fs, a => by
    obtain ⟨ih1, ih2, ih3⟩ := foldl_summaryStep_smallest fs (summaryStep a f)
    have hstep : (summaryStep a f).smallest =
        if (f.size : WithTop Nat) < a.smallest then (f.size : WithTop Nat)
        else a.smallest := rfl
    simp only [List.foldl_cons]
    refine ⟨?_, ?_, ?_⟩
    · by_cases h : (f.size : WithTop Nat) < a.smallest
      · rw [hstep, if_pos h] at ih1
        exact ih1.trans (le_of_lt h)
      · rw [hstep, if_neg h] at ih1
        exact ih1
    · intro g hg
      rcases List.mem_cons.mp hg with rfl | hg
      · by_cases h : (g.size : WithTop Nat) < a.smallest
        · rw [hstep, if_pos h] at ih1
          exact ih1
        · rw [hstep, if_neg h] at ih1
          exact ih1.trans (le_of_not_lt h)
      · exact ih2 g hg
    · rcases ih3 with h3 | ⟨g, hg, hge⟩
      · by_cases h : (f.size : WithTop Nat) < a.smallest
        · rw [hstep, if_pos h] at h3
          exact Or.inr ⟨f, List.mem_cons_self f fs, h3⟩
        · rw [hstep, if_neg h] at h3
          exact Or.inl h3
      · exact Or.inr ⟨g, List.mem_cons_of_mem f hg, hge⟩

/-- The summary block a writer emits is computed over the whole filtered
list: count is its length, average is the exact quotient of the size sum
by the count, and largest/smallest are attained maximum and minimum of
the filtered sizes. -/
lemma excelSummary_spec (functions : List FunctionInfo) (min_size : Nat)
    (S : Summary) (h : ExcelWriter.summary functions min_size = some S) :
    S.total = (ExcelWriter.filtered functions min_size).length ∧
    S.average =
      (((ExcelWriter.filtered functions min_size).map (fun f => f.size)).sum : ℚ) /
        ((ExcelWriter.filtered functions min_size).length : ℚ) ∧
    (∃ g ∈ ExcelWriter.filtered functions min_size, g.size = S.largest) ∧
    (∀ f ∈ ExcelWriter.filtered functions min_size, f.size ≤ S.largest) ∧
    (∃ g ∈ ExcelWriter.filtered functions min_size,
      (g.size : WithTop Nat) = S.smallest) ∧
    (∀ f ∈ ExcelWriter.filtered functions min_size,
      S.smallest ≤ (f.size : WithTop Nat)) := by
  simp only [ExcelWriter.summary] at h
  cases hLe : ExcelWriter.filtered functions min_size with
  | nil =>
    rw [hLe] at h
    simp at h
  | cons f0 fs0 =>
    rw [hLe] at h
    simp only [List.isEmpty_cons, Bool.false_eq_true, if_false,
      Option.some.injEq] at h
    obtain ⟨ha1, ha2, ha3⟩ := foldl_summaryStep_largest (f0 :: fs0) ⟨0, ⊤, 0⟩
    obtain ⟨hb1, hb2, hb3⟩ := foldl_summaryStep_smallest (f0 :: fs0) ⟨0, ⊤, 0⟩
    have htot := foldl_summaryStep_total (f0 :: fs0) ⟨0, ⊤, 0⟩
    subst h
    refine ⟨rfl, ?_, ?_, ha2, ?_, hb2⟩
    · simp only [htot]
      norm_num [Function.comp_def]
    · rcases ha3 with h3 | ⟨g, hg, hge⟩
      · have hf0 := ha2 f0 (List.mem_cons_self f0 fs0)
        refine ⟨f0, List.mem_cons_self f0 fs0, ?_⟩
        simp only [h3] at hf0 ⊢
        omega
      · exact ⟨g, hg, hge.symm⟩
    · rcases hb3 with h3 | ⟨g, hg, hge⟩
      · have hf0 := hb2 f0 (List.mem_cons_self f0 fs0)
        rw [h3] at hf0
        exact absurd hf0 (by simp)
      · exact ⟨g, hg, hge.symm⟩

/-! ## The claims -/

/-- C1: For every record emitted by any of the four parsers
(`JavaScriptParser`, `JavaParser`, `PythonParser`, `CSharpParser`) on any
input file, the start and end lines are 1-indexed with
`end_line ≥ start_line ≥ 1`, and `size = end_line − start_line + 1`
exactly. -/
theorem C1_record_invariant (fp : String) (lines : List String)
    (r : FunctionInfo) :
    (r ∈ JavaScriptParser.parse_functions fp lines → saneRecord r) ∧
    (r ∈ JavaParser.parse_functions fp lines → saneRecord r) ∧
    (r ∈ PythonParser.parse_functions fp lines → saneRecord r) ∧
    (r ∈ CSharpParser.parse_functions fp lines → saneRecord r) := by
  refine ⟨?_, ?_, ?_, ?_⟩
  · intro hr
    exact braceScan_sane jsMatch fp lines none 1 (by omega) (by simp) r hr
  · intro hr
    exact braceScan_sane javaMatch fp lines none 1 (by omega) (by simp) r hr
  · intro hr
    exact pyScan_sane pyMatch fp lines 0 r hr
  · intro hr
    exact csScan_sane csMatch fp lines ⟨none, none⟩ 1 (by omega)
      ⟨by simp, by simp⟩ r hr

/-- Witness for C1 at a concrete JavaScript file of two lines. -/
theorem C1_record_invariant_witness :
    saneRecord ⟨"f", "w1.js", 1, 2, 2⟩ :=
  (C1_record_invariant ("w1.js") (["function f() \x7b", "\x7d"])
    ⟨"f", "w1.js", 1, 2, 2⟩).1 (by decide)

/-- C2 counterexample: on the two-line file
`["function foo() {}}", "{"]` the first line matches header pattern 1
with brace count `1 − 2 = −1` (nonzero), and the running counter returns
to zero at line 2 (`−1 + 1 = 0`), so the claim requires a record ending
at line 2 — but the scanner emits nothing at all, because a header line
with negative brace count is silently discarded
(`elif brace_count > 0`). -/
theorem C2_counterexample :
    jsMatch ("function foo() \x7b\x7d\x7d") = some ("foo") ∧
    braceNet ("function foo() \x7b\x7d\x7d") ≠ 0 ∧
    closeIndex (braceNet ("function foo() \x7b\x7d\x7d")) (["\x7b"]) = some 0 ∧
    JavaScriptParser.parse_functions ("cex.js")
      (["function foo() \x7b\x7d\x7d", "\x7b"]) = [] :=
  ⟨by decide, by decide, by decide, by decide⟩

/-- C2 (amended): on a header-matching line while no function is tracked,
if the line's brace count is zero a one-line record is emitted
immediately; if it is positive the scanner tracks the function and emits
a record whose end line is the first subsequent line at which the counter
returns to zero (no record if it never does); if it is negative the
candidate is silently discarded and scanning resumes on the next line
with no function tracked. -/
theorem C2_header_dispatch (m : String → Option String) (fp nm : String)
    (n : Nat) (line : String) (rest : List String) (hm : m line = some nm) :
    (braceNet line = 0 →
      braceScanAux m fp none n (line :: rest) =
        ⟨nm, fp, n, n, 1⟩ :: braceScanAux m fp none (n + 1) rest) ∧
    (0 < braceNet line →
      braceScanAux m fp none n (line :: rest) =
        (match closeIndex (braceNet line) rest with
        | none => []
        | some j =>
          ⟨nm, fp, n, n + 1 + j, j + 2⟩ ::
            braceScanAux m fp none (n + j + 2) (rest.drop (j + 1)))) ∧
    (braceNet line < 0 →
      braceScanAux m fp none n (line :: rest) =
        braceScanAux m fp none (n + 1) rest) := by
  refine ⟨?_, ?_, ?_⟩
  · intro h0
    simp [braceScanAux, hm, h0]
  · intro hpos
    have hne : ¬(braceNet line = 0) := by omega
    simp only [braceScanAux, hm, if_neg hne, if_pos hpos]
    rw [braceScan_tracking m fp nm rest n (braceNet line) (n + 1)]
    cases hcl : closeIndex (braceNet line) rest with
    | none => simp
    | some j =>
      simp only []
      have e1 : n + 1 + j - n + 1 = j + 2 := by omega
      have e2 : n + 1 + j + 1 = n + j + 2 := by omega
      rw [e1, e2]
  · intro hneg
    have h0 : ¬(braceNet line = 0) := by omega
    have hp : ¬(0 < braceNet line) := by omega
    simp [braceScanAux, hm, if_neg h0, if_neg hp]

/-- Witness for C2 (amended), in the positive-count case, on a concrete
two-line file. -/
theorem C2_header_dispatch_witness :
    braceScanAux jsMatch ("w2.js") none 1 (["function f() \x7b", "\x7d"]) =
      [⟨"f", "w2.js", 1, 2, 2⟩] := by
  have h := (C2_header_dispatch jsMatch ("w2.js") ("f") 1 ("function f() \x7b")
    (["\x7d"]) (by decide)).2.1 (by decide)
  exact h.trans (by decide)

/-- C3: the Python body scanner, started at absolute index `j`, ends at
the last substantive (non-blank, non-comment) line seen before the first
substantive line whose indentation is at most the base indentation
(respectively before end of file when no such terminating line exists);
when no substantive body line is seen at all, the initial end line `e` is
kept.  Blank and comment lines never affect the boundary decision. -/
theorem C3_body_boundary (s : List String) (j e base : Nat) :
    bodyEndList j e base s =
      (match lastSubBefore ((firstTermRel base s).getD s.length) s with
      | none => e
      | some r => j + r) :=
  bodyEndList_spec s j e base

/-- C4: when the header line's parenthesis count is nonzero, the
signature-close scan stops exactly at the first line carrying a colon at
running parenthesis balance zero (accumulated from the header line
onward), which lies strictly after the header line; and for a matched
header the emitted record's end line is computed by the body scan that
starts at the line after the signature close (`pyEnd`). -/
theorem C4_signature_close (i : Nat) (line : String) (rest : List String)
    (h : parenNet line ≠ 0) :
    sigCloseList i 0 (line :: rest) =
      i + (firstSigCloseRel 0 (line :: rest)).getD (line :: rest).length ∧
    0 < (firstSigCloseRel 0 (line :: rest)).getD (line :: rest).length ∧
    (∀ (m : String → Option String) (fp nm : String), m line = some nm →
      pyScanAux m fp i (line :: rest) =
        ⟨nm, fp, i + 1, pyEnd i line rest + 1, pyEnd i line rest - i + 1⟩ ::
          pyScanAux m fp (i + 1) rest) := by
  refine ⟨sigCloseList_spec (line :: rest) i 0, ?_, ?_⟩
  · simp only [firstSigCloseRel]
    have hcond : ¬(hasColon line ∧ (0 : Int) + parenNet line = 0) := by
      intro hc
      apply h
      have := hc.2
      omega
    rw [if_neg hcond]
    cases hf : firstSigCloseRel ((0 : Int) + parenNet line) rest with
    | none => simp
    | some r => simp
  · intro m fp nm hm
    exact pyScan_cons_some m fp i line rest nm hm

/-- Witness for C4 on a concrete three-line file with a multi-line
signature. -/
theorem C4_signature_close_witness :
    sigCloseList 0 0 (["def f(a,", "  b):", "  return 1"]) =
      0 + (firstSigCloseRel 0
        (["def f(a,", "  b):", "  return 1"])).getD
          ((["def f(a,", "  b):", "  return 1"]).length) ∧
    pyScanAux pyMatch ("w4.py") 0 (["def f(a,", "  b):", "  return 1"]) =
      [⟨"f", "w4.py", 1, 3, 3⟩] := by
  have h := C4_signature_close 0 ("def f(a,") (["  b):", "  return 1"])
    (by decide)
  refine ⟨h.1, ?_⟩
  have h2 := h.2.2 pyMatch ("w4.py") ("f") (by decide)
  exact h2.trans (by decide)

/-- C5: while a function is open, the brace scanner only accumulates the
counter and never applies any header pattern: the scan's outcome is
determined by `closeIndex` alone — exactly one record (the open one) is
produced from the region up to the close (no record at all if the counter
never returns to zero), and the matcher `m` re-enters only after the
close, so a nested header inside the open function never yields a
separate record. -/
theorem C5_single_tracking (m : String → Option String) (fp nm : String)
    (st : Nat) (bc : Int) (n : Nat) (lines : List String) :
    braceScanAux m fp (some (nm, st, bc)) n lines =
      (match closeIndex bc lines with
      | none => []
      | some j =>
        ⟨nm, fp, st, n + j, n + j - st + 1⟩ ::
          braceScanAux m fp none (n + j + 1) (lines.drop (j + 1))) :=
  braceScan_tracking m fp nm lines st bc n

/-- C6: both writers emit as top-N exactly the filtered record list,
stably sorted by size descending, truncated to at most N records: the
minimum-size filter is applied before sorting and truncation, the sorted
list is a permutation of the filtered list, sizes are descending, each
equal-size class keeps its original discovery order, and the emitted list
has length at most N. -/
theorem C6_topn_stable_sorted (functions : List FunctionInfo)
    (top_n min_size : Nat) :
    ExcelWriter.topFunctions functions top_n min_size =
      (sortBySizeDesc (ExcelWriter.filtered functions min_size)).take top_n ∧
    JSONWriter.topFunctions functions top_n min_size =
      (sortBySizeDesc (ExcelWriter.filtered functions min_size)).take top_n ∧
    ExcelWriter.filtered functions min_size =
      functions.filter (fun f => decide (min_size ≤ f.size)) ∧
    (sortBySizeDesc (ExcelWriter.filtered functions min_size)).Perm
      (ExcelWriter.filtered functions min_size) ∧
    List.Pairwise (fun a b => b.size ≤ a.size)
      (sortBySizeDesc (ExcelWriter.filtered functions min_size)) ∧
    List.Pairwise (fun a b => b.size ≤ a.size)
      (ExcelWriter.topFunctions functions top_n min_size) ∧
    (∀ s : Nat,
      (sortBySizeDesc (ExcelWriter.filtered functions min_size)).filter
          (fun g => g.size == s) =
        (ExcelWriter.filtered functions min_size).filter
          (fun g => g.size == s)) ∧
    (ExcelWriter.topFunctions functions top_n min_size).length ≤ top_n := by
  refine ⟨rfl, rfl, rfl, sortBySizeDesc_perm _, sortBySizeDesc_pairwise _,
    ?_, fun s => sortBySizeDesc_filter s _, ?_⟩
  · exact (sortBySizeDesc_pairwise _).sublist (List.take_sublist _ _)
  · simp only [ExcelWriter.topFunctions, List.length_take]
    omega

/-- C7: every record retained by the minimum-size filter has size at
least the threshold, and the summary statistics of both writers (count,
average, largest, smallest) are computed over the whole filtered list. -/
theorem C7_summary_over_filtered (functions : List FunctionInfo)
    (min_size : Nat) :
    (∀ f ∈ ExcelWriter.filtered functions min_size, min_size ≤ f.size) ∧
    (∀ f ∈ JSONWriter.filtered functions min_size, min_size ≤ f.size) ∧
    (∀ S, ExcelWriter.summary functions min_size = some S →
      S.total = (ExcelWriter.filtered functions min_size).length ∧
      S.average =
        (((ExcelWriter.filtered functions min_size).map
          (fun f => f.size)).sum : ℚ) /
          ((ExcelWriter.filtered functions min_size).length : ℚ) ∧
      (∃ g ∈ ExcelWriter.filtered functions min_size, g.size = S.largest) ∧
      (∀ f ∈ ExcelWriter.filtered functions min_size, f.size ≤ S.largest) ∧
      (∃ g ∈ ExcelWriter.filtered functions min_size,
        (g.size : WithTop Nat) = S.smallest) ∧
      (∀ f ∈ ExcelWriter.filtered functions min_size,
        S.smallest ≤ (f.size : WithTop Nat))) ∧
    (∀ S, JSONWriter.summary functions min_size = some S →
      S.total = (JSONWriter.filtered functions min_size).length ∧
      S.average =
        (((JSONWriter.filtered functions min_size).map
          (fun f => f.size)).sum : ℚ) /
          ((JSONWriter.filtered functions min_size).length : ℚ) ∧
      (∃ g ∈ JSONWriter.filtered functions min_size, g.size = S.largest) ∧
      (∀ f ∈ JSONWriter.filtered functions min_size, f.size ≤ S.largest) ∧
      (∃ g ∈ JSONWriter.filtered functions min_size,
        (g.size : WithTop Nat) = S.smallest) ∧
      (∀ f ∈ JSONWriter.filtered functions min_size,
        S.smallest ≤ (f.size : WithTop Nat))) := by
  have hmem : ∀ f ∈ ExcelWriter.filtered functions min_size, min_size ≤ f.size := by
    intro f hf
    simp only [ExcelWriter.filtered, List.mem_filter, decide_eq_true_eq] at hf
    exact hf.2
  refine ⟨hmem, hmem, fun S h => excelSummary_spec functions min_size S h,
    fun S h => excelSummary_spec functions min_size S h⟩

/-- Witness for C7 at a concrete two-record repository with threshold 2:
the filter retains only the 3-line record and the summary is computed
from it. -/
theorem C7_summary_over_filtered_witness :
    2 ≤ (⟨"a", "p", 1, 3, 3⟩ : FunctionInfo).size ∧
    (⟨1, ((3 : Nat) : ℚ) / ((1 : Nat) : ℚ), 3,
        ((3 : Nat) : WithTop Nat)⟩ : Summary).total =
      (ExcelWriter.filtered
        ([⟨"a", "p", 1, 3, 3⟩, ⟨"b", "p", 4, 4, 1⟩]) 2).length := by
  have h := C7_summary_over_filtered
    ([⟨"a", "p", 1, 3, 3⟩, ⟨"b", "p", 4, 4, 1⟩]) 2
  refine ⟨h.1 ⟨"a", "p", 1, 3, 3⟩ (by decide), ?_⟩
  exact (h.2.2.1 ⟨1, ((3 : Nat) : ℚ) / ((1 : Nat) : ℚ), 3,
    ((3 : Nat) : WithTop Nat)⟩ rfl).1

/-- C8: for the same records, top-N value and minimum-size threshold, the
Excel and JSON writers filter identically and compute identical summary
statistics (and identical top-N lists). -/
theorem C8_writers_identical (functions : List FunctionInfo)
    (top_n min_size : Nat) :
    ExcelWriter.filtered functions min_size =
      JSONWriter.filtered functions min_size ∧
    ExcelWriter.summary functions min_size =
      JSONWriter.summary functions min_size ∧
    ExcelWriter.topFunctions functions top_n min_size =
      JSONWriter.topFunctions functions top_n min_size :=
  ⟨rfl, rfl, rfl⟩

/-- C9: a local path that does not exist, and a remote locator whose
clone fails or times out, each yield a null repository identifier and an
empty record list; totality of the embedded function reflects that no
exception propagates on those paths. -/
theorem C9_failed_repo (env : ScanEnv) (repo : String) :
    (isRemoteRepo repo = false → env.pathExists repo = false →
      scan_single_repository env repo = (none, [])) ∧
    (isRemoteRepo repo = true → env.cloneOutcome repo = CloneOutcome.failure →
      scan_single_repository env repo = (none, [])) ∧
    (isRemoteRepo repo = true → env.cloneOutcome repo = CloneOutcome.timeout →
      scan_single_repository env repo = (none, [])) := by
  refine ⟨?_, ?_, ?_⟩
  · intro h1 h2
    simp [scan_single_repository, h1, h2]
  · intro h1 h2
    simp [scan_single_repository, h1, h2]
  · intro h1 h2
    simp [scan_single_repository, h1, h2]

/-- An environment with no filesystem entries whose clones always fail. -/
def envAllFail : ScanEnv :=
  ⟨fun _ => false, fun _ => CloneOutcome.failure, fun _ => []⟩

/-- Witness for C9: a missing local path and a failing remote clone. -/
theorem C9_failed_repo_witness :
    scan_single_repository envAllFail ("missing/path") = (none, []) ∧
    scan_single_repository envAllFail ("https://example.com/r.git") =
      (none, []) := by
  refine ⟨?_, ?_⟩
  · exact (C9_failed_repo envAllFail ("missing/path")).1 (by decide) rfl
  · exact (C9_failed_repo envAllFail ("https://example.com/r.git")).2.1
      (by decide) rfl

/-- C10: the indentation-scoped scanner never discards a candidate —
its output has exactly one record per line matched by the header pattern
— and a matched header whose body scan finds no deeper-indented line
(the end line stays at the header) yields a record with start = end =
the header line and size 1. -/
theorem C10_python_never_discards (m : String → Option String) (fp : String)
    (lines : List String) (i : Nat) :
    (pyScanAux m fp i lines).length = countMatches m lines ∧
    (∀ nm line rest, lines = line :: rest → m line = some nm →
      pyEnd i line rest = i →
      pyScanAux m fp i lines =
        ⟨nm, fp, i + 1, i + 1, 1⟩ :: pyScanAux m fp (i + 1) rest) := by
  refine ⟨pyScan_length m fp lines i, ?_⟩
  intro nm line rest hl hm he
  subst hl
  rw [pyScan_cons_some m fp i line rest nm hm, he]
  simp [Nat.sub_self]

/-- Witness for C10: a one-line file whose single `def` header has no
body. -/
theorem C10_python_never_discards_witness :
    pyScanAux pyMatch ("w10.py") 0 (["def g():"]) =
      [⟨"g", "w10.py", 1, 1, 1⟩] ∧
    (pyScanAux pyMatch ("w10.py") 0 (["def g():"])).length =
      countMatches pyMatch (["def g():"]) := by
  have h := C10_python_never_discards pyMatch ("w10.py") (["def g():"]) 0
  refine ⟨?_, h.1⟩
  have h2 := h.2 ("g") ("def g():") [] rfl (by decide) (by decide)
  exact h2.trans (by decide)
